import Mathlib

/-
Shallow embedding of `src/esp32-mp3-decoder/components/i2s/i2s_freertos.c`,
the I2S DMA audio-output driver: the clock-divider solver (`i2sSetRate`),
the DMA-completion interrupt handler (`i2s_isr`), the initialization routine
(`i2sInit`, buffer pool and descriptor ring), and the producer-side
`i2sPushSample` routine.  All machine integers in the driver stay far from
their width bounds for the inputs considered, so `int` is embedded as `Int`
and unsigned quantities as `Nat`.
-/

namespace I2S

/-! ## Clock divider solver (`i2sSetRate`, lines 236-284) -/

/-- BASEFREQ from line 236: `#define BASEFREQ (160000000L)`. -/
def BASEFREQ : Int := 160000000

/-- The `ABS` macro from line 237: `(((x)>0)?(x):(-(x)))`. -/
def cabs (x : Int) : Int := if 0 < x then x else -x

/-- The `ABS` macro computes the usual absolute value. -/
theorem cabs_eq_abs (x : Int) : cabs x = |x| := by
  unfold cabs
  rcases lt_trichotomy 0 x with h | h | h
  · rw [if_pos h, abs_of_pos h]
  · simp [h.symm]
  · rw [if_neg (by omega), abs_of_neg h]

/-- A candidate divider triple `(bckdiv, clkmdiv, bits)` from the nested loops. -/
abbrev Triple := Nat × Nat × Nat

/-- Line 260: `tstfreq = BASEFREQ/(bckdiv*clkmdiv*bits*2)`; all factors are
positive in the loop ranges, so C `int` division is `Nat` division. -/
def achieved (c : Triple) : Int := ((160000000 / (c.1 * c.2.1 * c.2.2 * 2) : Nat) : Int)

/-- The four `best*` locals of `i2sSetRate` (line 242). -/
structure SetRateResult where
  bestclkmdiv : Nat
  bestbckdiv : Nat
  bestbits : Nat
  bestfreq : Int
  deriving DecidableEq, Repr

/-- The state the loop body writes when candidate `c` wins (lines 262-265). -/
def stateOf (c : Triple) : SetRateResult :=
  { bestclkmdiv := c.2.1, bestbckdiv := c.1, bestbits := c.2.2, bestfreq := achieved c }

/-- Error of a frequency against the requested rate: `ABS(rate-f)` (line 261). -/
def err (rate : Int) (f : Int) : Int := cabs (rate - f)

/-- One iteration of the inner loop body (lines 260-266): update the running
best exactly when the candidate's error is strictly smaller. -/
def rateStep (rate : Int) (s : SetRateResult) (c : Triple) : SetRateResult :=
  if err rate (achieved c) < err rate s.bestfreq then stateOf c else s

/-- Upper bound of the `bits` loop (line 259): `enaWordlenFuzzing?20:17`. -/
def bitsUpper (fuzz : Bool) : Nat := if fuzz then 20 else 17

/-- The candidate triples in the exact enumeration order of the three nested
loops (lines 257-259): `bckdiv` in `[2,64)`, then `clkmdiv` in `[5,64)`, then
`bits` in `[16, bitsUpper)`. -/
def candidates (fuzz : Bool) : List Triple :=
  (List.range' 2 62).flatMap fun bck =>
    (List.range' 5 59).flatMap fun clkm =>
      (List.range' 16 (bitsUpper fuzz - 16)).map fun bits => (bck, clkm, bits)

/-- The search of `i2sSetRate` (lines 240-269), starting from the declared
initial values `bestclkmdiv=5, bestbckdiv=2, bestbits=16, bestfreq=-10000`. -/
def i2sSetRate (rate : Int) (fuzz : Bool) : SetRateResult :=
  (candidates fuzz).foldl (rateStep rate) ⟨5, 2, 16, -10000⟩

/-- Bounds characterization of membership in the candidate list. -/
theorem mem_candidates {fuzz : Bool} {c : Triple} :
    c ∈ candidates fuzz ↔
      (2 ≤ c.1 ∧ c.1 < 64) ∧ (5 ≤ c.2.1 ∧ c.2.1 < 64) ∧
      (16 ≤ c.2.2 ∧ c.2.2 < bitsUpper fuzz) := by
  obtain ⟨b, m, t⟩ := c
  have hb : 16 + (bitsUpper fuzz - 16) = bitsUpper fuzz := by
    cases fuzz <;> simp [bitsUpper]
  simp only [candidates, List.mem_flatMap, List.mem_map, List.mem_range'_1, Prod.mk.injEq]
  constructor
  · rintro ⟨bck, hbck, clkm, hclkm, bits, hbits, rfl, rfl, rfl⟩
    omega
  · rintro ⟨⟨h1, h2⟩, ⟨h3, h4⟩, ⟨h5, h6⟩⟩
    exact ⟨b, by omega, m, by omega, t, by omega, rfl, rfl, rfl⟩

/-- The strict-improvement fold either keeps the initial state (when no
candidate beats it) or returns the state of the first candidate attaining the
minimum error: all earlier candidates have strictly larger error (so an equal
error never replaces the current best) and all later ones at least this error. -/
theorem foldl_rateStep_cases (rate : Int) (l : List Triple) :
    ∀ s : SetRateResult,
      (l.foldl (rateStep rate) s = s ∧ ∀ c ∈ l, err rate s.bestfreq ≤ err rate (achieved c)) ∨
      (∃ pre c post, l = pre ++ c :: post ∧
        l.foldl (rateStep rate) s = stateOf c ∧
        err rate (achieved c) < err rate s.bestfreq ∧
        (∀ c2 ∈ pre, err rate (achieved c) < err rate (achieved c2)) ∧
        (∀ c2 ∈ post, err rate (achieved c) ≤ err rate (achieved c2))) := by
  induction l with
  | nil =>
    intro s
    left
    exact ⟨rfl, fun c hc => absurd hc (List.not_mem_nil c)⟩
  | cons a t ih =>
    intro s
    rw [List.foldl_cons]
    by_cases h : err rate (achieved a) < err rate s.bestfreq
    · have hstep : rateStep rate s a = stateOf a := if_pos h
      rw [hstep]
      rcases ih (stateOf a) with ⟨heq, hall⟩ | ⟨pre, c, post, hsplit, hres, hlt, hpre, hpost⟩
      · right
        refine ⟨[], a, t, rfl, heq, h, ?_, ?_⟩
        · intro c2 hc2
          exact absurd hc2 (List.not_mem_nil c2)
        · intro c2 hc2
          exact hall c2 hc2
      · right
        refine ⟨a :: pre, c, post, by rw [hsplit, List.cons_append], hres, lt_trans hlt h, ?_,
          hpost⟩
        intro c2 hc2
        rcases List.mem_cons.mp hc2 with rfl | hmem
        · exact hlt
        · exact hpre c2 hmem
    · have hstep : rateStep rate s a = s := if_neg h
      rw [hstep]
      rcases ih s with ⟨heq, hall⟩ | ⟨pre, c, post, hsplit, hres, hlt, hpre, hpost⟩
      · left
        refine ⟨heq, ?_⟩
        intro c2 hc2
        rcases List.mem_cons.mp hc2 with rfl | hmem
        · exact le_of_not_lt h
        · exact hall c2 hmem
      · right
        refine ⟨a :: pre, c, post, by rw [hsplit, List.cons_append], hres, hlt, ?_, hpost⟩
        intro c2 hc2
        rcases List.mem_cons.mp hc2 with rfl | hmem
        · exact lt_of_lt_of_le hlt (le_of_not_lt h)
        · exact hpre c2 hmem

/-- The slowest achievable frequency in the search space. -/
theorem achieved_slowest : achieved (63, 63, 16) = 1259 := by decide

/-- The slowest candidate is in the search space for either fuzzing flag. -/
theorem slowest_mem (fuzz : Bool) : ((63, 63, 16) : Triple) ∈ candidates fuzz := by
  rw [mem_candidates]
  cases fuzz <;> simp [bitsUpper]

/-- For any positive rate, some candidate beats the `bestfreq=-10000` sentinel. -/
theorem sentinel_beaten (rate : Int) (hr : 0 < rate) :
    err rate (achieved (63, 63, 16)) < err rate (-10000) := by
  rw [achieved_slowest]
  simp only [err, cabs]
  split_ifs <;> omega

/-- For a positive rate the solver's result is the state of the first
minimum-error candidate of the enumeration. -/
theorem setRate_firstMin (rate : Int) (hr : 0 < rate) (fuzz : Bool) :
    ∃ pre c post, candidates fuzz = pre ++ c :: post ∧
      i2sSetRate rate fuzz = stateOf c ∧
      (∀ c2 ∈ pre, err rate (achieved c) < err rate (achieved c2)) ∧
      (∀ c2 ∈ post, err rate (achieved c) ≤ err rate (achieved c2)) := by
  rcases foldl_rateStep_cases rate (candidates fuzz) ⟨5, 2, 16, -10000⟩ with
    ⟨_, hall⟩ | ⟨pre, c, post, hsplit, hres, _, hpre, hpost⟩
  · exact absurd (hall _ (slowest_mem fuzz)) (not_le.mpr (sentinel_beaten rate hr))
  · exact ⟨pre, c, post, hsplit, hres, hpre, hpost⟩

/-- The property claimed of the solver: the chosen dividers lie in the declared
search bounds, the recorded best frequency is the achieved frequency of the
chosen triple, and its error is minimal over the entire search space. -/
def RateMinimal (rate : Int) (fuzz : Bool) : Prop :=
  (2 ≤ (i2sSetRate rate fuzz).bestbckdiv ∧ (i2sSetRate rate fuzz).bestbckdiv < 64) ∧
  (5 ≤ (i2sSetRate rate fuzz).bestclkmdiv ∧ (i2sSetRate rate fuzz).bestclkmdiv < 64) ∧
  (16 ≤ (i2sSetRate rate fuzz).bestbits ∧ (i2sSetRate rate fuzz).bestbits < bitsUpper fuzz) ∧
  (i2sSetRate rate fuzz).bestfreq =
    achieved ((i2sSetRate rate fuzz).bestbckdiv, (i2sSetRate rate fuzz).bestclkmdiv,
      (i2sSetRate rate fuzz).bestbits) ∧
  ∀ bck clkm bits : Nat, 2 ≤ bck → bck < 64 → 5 ≤ clkm → clkm < 64 →
    16 ≤ bits → bits < bitsUpper fuzz →
    err rate (i2sSetRate rate fuzz).bestfreq ≤ err rate (achieved (bck, clkm, bits))

/-- C1: for every positive requested rate and either value of the
word-length-fuzzing flag, `i2sSetRate` selects a divider triple with
bck-divider in `[2,64)`, main-divider in `[5,64)` and bits in `[16,17)`
(`[16,20)` with fuzzing), whose achieved frequency
`BASEFREQ/(bck*main*bits*2)` has minimum absolute error `|rate - achieved|`
over the entire search space. -/
theorem i2sSetRate_minimizes (rate : Int) (hr : 0 < rate) (fuzz : Bool) :
    RateMinimal rate fuzz := by
  obtain ⟨pre, c, post, hsplit, hres, hpre, hpost⟩ := setRate_firstMin rate hr fuzz
  have hmemc : c ∈ candidates fuzz := by
    rw [hsplit]
    exact List.mem_append_right pre (List.mem_cons_self c post)
  have hbounds := mem_candidates.mp hmemc
  have hmin : ∀ c2 ∈ candidates fuzz, err rate (achieved c) ≤ err rate (achieved c2) := by
    intro c2 hc2
    rw [hsplit] at hc2
    rcases List.mem_append.mp hc2 with hp | hq
    · exact le_of_lt (hpre c2 hp)
    · rcases List.mem_cons.mp hq with rfl | hq2
      · exact le_refl _
      · exact hpost c2 hq2
  refine ⟨?_, ?_, ?_, ?_, ?_⟩
  · rw [hres]; exact hbounds.1
  · rw [hres]; exact hbounds.2.1
  · rw [hres]; exact hbounds.2.2
  · rw [hres]; rfl
  · intro bck clkm bits h1 h2 h3 h4 h5 h6
    have hmem2 : ((bck, clkm, bits) : Triple) ∈ candidates fuzz := by
      rw [mem_candidates]
      exact ⟨⟨h1, h2⟩, ⟨h3, h4⟩, ⟨h5, h6⟩⟩
    have := hmin _ hmem2
    rw [hres]
    exact this

/-- Witness for C1 at the concrete rate 44100 Hz. -/
theorem i2sSetRate_minimizes_witness :
    (0 : Int) < 44100 ∧ RateMinimal 44100 false :=
  ⟨by decide, i2sSetRate_minimizes 44100 (by decide) false⟩

/-- C6: the triple returned by `i2sSetRate` is the first candidate, in
enumeration order (ascending bck-divider, then main-divider, then bits), at
the minimum error: every earlier candidate has strictly larger error (so a
later candidate with merely equal error never replaces the current best) and
every later candidate has at least its error. -/
theorem i2sSetRate_first_strict (rate : Int) (hr : 0 < rate) (fuzz : Bool) :
    ∃ pre c post, candidates fuzz = pre ++ c :: post ∧
      i2sSetRate rate fuzz = stateOf c ∧
      (∀ c2 ∈ pre, err rate (achieved c) < err rate (achieved c2)) ∧
      (∀ c2 ∈ post, err rate (achieved c) ≤ err rate (achieved c2)) :=
  setRate_firstMin rate hr fuzz

/-- Witness for C6 at the concrete rate 48000 Hz. -/
theorem i2sSetRate_first_strict_witness :
    (0 : Int) < 48000 ∧
    ∃ pre c post, candidates true = pre ++ c :: post ∧
      i2sSetRate 48000 true = stateOf c ∧
      (∀ c2 ∈ pre, err 48000 (achieved c) < err 48000 (achieved c2)) ∧
      (∀ c2 ∈ post, err 48000 (achieved c) ≤ err 48000 (achieved c2)) :=
  ⟨by decide, i2sSetRate_first_strict 48000 (by decide) true⟩

/-! ## Interrupt handler (`i2s_isr`, lines 81-111) -/

/-- Modelled from the spec: the out-EOF interrupt status bit
`I2S_OUT_EOF_INT_ST` of `soc/i2s_reg.h` (bit 12).  The register bit layout is
an external collaborator of this repository; only "at least this status bit is
set" versus "status reads zero" matters to the handler's logic. -/
def I2S_OUT_EOF_INT_ST : Nat := 4096

/-- The two hardware registers the handler reads: the interrupt status
register `I2S_INT_ST_REG(0)` and, via `I2S_OUT_EOF_DES_ADDR_REG(0)`, the
finished descriptor's `buf` pointer (the token `&finishedDesc->buf` points
at, which `xQueueSendFromISR` copies onto the queue). -/
structure IsrRegs where
  intSt : Nat
  eofDesBuf : Nat
  deriving DecidableEq, Repr

/-- The driver state the handler touches: the completion queue `dmaQueue`
(front = oldest, with its creation-time capacity), the `underrunCnt` counter,
and the log of writes to the interrupt-clear register
`I2S_INT_CLR_REG(0)` made during the call. -/
structure IsrState where
  dmaQueue : List Nat
  queueCap : Nat
  underrunCnt : Int
  intClrWrites : List Nat
  deriving DecidableEq, Repr

/-- The handler `i2s_isr` (lines 81-111): return at once when the status
register reads zero; otherwise write `0xffffffff` to the clear register, and
if the out-EOF bit is set, recycle the finished buffer — when the queue is
full (`xQueueIsQueueFullFromISR`: as many items as the capacity) first bump
the underrun counter and drop the oldest queued token; then enqueue the
finished buffer's token (`xQueueSendFromISR` appends only when room is left,
as in FreeRTOS). -/
def i2s_isr (regs : IsrRegs) (s : IsrState) : IsrState :=
  let slc_intr_status := regs.intSt
  if slc_intr_status = 0 then s
  else
    let s1 : IsrState := { s with intClrWrites := s.intClrWrites ++ [4294967295] }
    if slc_intr_status &&& I2S_OUT_EOF_INT_ST ≠ 0 then
      let s2 : IsrState :=
        if s1.dmaQueue.length = s1.queueCap then
          { s1 with underrunCnt := s1.underrunCnt + 1, dmaQueue := s1.dmaQueue.tail }
        else s1
      if s2.dmaQueue.length < s2.queueCap then
        { s2 with dmaQueue := s2.dmaQueue ++ [regs.eofDesBuf] }
      else s2
    else s1

/-- C2: a completion event (out-EOF status bit set) on a full completion
queue (capacity `nbuf - 1`) increments the underrun counter exactly once,
discards exactly the oldest queued token, and then enqueues the finished
buffer's token; on a non-full queue the counter is unchanged and only the
enqueue happens. -/
theorem i2s_isr_underrun (regs : IsrRegs) (s : IsrState) (nbuf : Nat)
    (hbit : regs.intSt &&& I2S_OUT_EOF_INT_ST ≠ 0)
    (hn : 2 ≤ nbuf) (hcap : s.queueCap = nbuf - 1) :
    (s.dmaQueue.length = s.queueCap →
      (i2s_isr regs s).underrunCnt = s.underrunCnt + 1 ∧
      (i2s_isr regs s).dmaQueue = s.dmaQueue.tail ++ [regs.eofDesBuf]) ∧
    (s.dmaQueue.length < s.queueCap →
      (i2s_isr regs s).underrunCnt = s.underrunCnt ∧
      (i2s_isr regs s).dmaQueue = s.dmaQueue ++ [regs.eofDesBuf]) := by
  have hst : regs.intSt ≠ 0 := by
    intro h0
    rw [h0] at hbit
    exact hbit (Nat.zero_and _)
  constructor
  · intro hfull
    simp only [i2s_isr, if_neg hst, if_pos hbit]
    split_ifs with hA
    · exact ⟨rfl, rfl⟩
    · exfalso
      replace hA : ¬ s.dmaQueue.tail.length < s.queueCap := hA
      rw [List.length_tail] at hA
      omega
  · intro hlt
    simp only [i2s_isr, if_neg hst, if_pos hbit]
    split_ifs with hA hB
    · replace hA : s.dmaQueue.length = s.queueCap := hA
      omega
    · replace hA : s.dmaQueue.length = s.queueCap := hA
      omega
    · exact ⟨rfl, rfl⟩

/-- Witness for C2: a full queue of capacity 3 (so `nbuf = 4`) and a non-full
one, at a status word with the out-EOF bit set. -/
theorem i2s_isr_underrun_witness :
    ((4096 : Nat) &&& I2S_OUT_EOF_INT_ST ≠ 0) ∧
    ((⟨[7, 8, 9], 3, 0, []⟩ : IsrState).dmaQueue.length = 3 →
      (i2s_isr ⟨4096, 42⟩ ⟨[7, 8, 9], 3, 0, []⟩).underrunCnt = 0 + 1 ∧
      (i2s_isr ⟨4096, 42⟩ ⟨[7, 8, 9], 3, 0, []⟩).dmaQueue = [7, 8, 9].tail ++ [42]) :=
  ⟨by decide, fun h =>
    ((i2s_isr_underrun ⟨4096, 42⟩ ⟨[7, 8, 9], 3, 0, []⟩ 4 (by decide) (by decide) rfl).1 h)⟩

/-- C10: with a zero status register the handler leaves the queue, the
underrun counter and the interrupt-clear register untouched; the clear-all
write happens exactly when some status bit is set. -/
theorem i2s_isr_idle (regs : IsrRegs) (s : IsrState) :
    (regs.intSt = 0 → i2s_isr regs s = s) ∧
    (regs.intSt ≠ 0 →
      (i2s_isr regs s).intClrWrites = s.intClrWrites ++ [4294967295]) := by
  constructor
  · intro h0
    simp [i2s_isr, h0]
  · intro hne
    simp only [i2s_isr, if_neg hne]
    split
    · split <;> split <;> rfl
    · rfl

/-- Witness for C10: zero status leaves a concrete state unchanged; a nonzero
status appends exactly one clear-all write. -/
theorem i2s_isr_idle_witness :
    i2s_isr ⟨0, 5⟩ ⟨[1, 2], 3, 7, []⟩ = ⟨[1, 2], 3, 7, []⟩ ∧
    (i2s_isr ⟨4096, 5⟩ ⟨[1, 2], 3, 7, []⟩).intClrWrites = [] ++ [4294967295] :=
  ⟨(i2s_isr_idle ⟨0, 5⟩ ⟨[1, 2], 3, 7, []⟩).1 rfl,
   (i2s_isr_idle ⟨4096, 5⟩ ⟨[1, 2], 3, 7, []⟩).2 (by decide)⟩

/-! ## Sample push routine (`i2sPushSample`, lines 286-303) -/

/-- Producer-side state: the statics `currDMABuff` (a buffer token, `none`
for the `NULL` initial value) and `currDMABuffPos` of lines 287-289, the
completion queue the routine pops from (front = oldest), a count of calls
to `xQueueReceive`, and a log of the sample stores
`currDMABuff[currDMABuffPos++]=sample` as (buffer token, index, sample). -/
structure PushState where
  currDMABuff : Option Nat
  currDMABuffPos : Nat
  queue : List Nat
  dequeueCalls : Nat
  writes : List (Nat × Nat × Nat)
  deriving DecidableEq, Repr

/-- Lines 297-301: when the current buffer is full (`currDMABuffPos ==
I2SDMABUFLEN`) or absent (`NULL`), pop the next buffer with `xQueueReceive`
(blocking, modelled as `none` when the queue never supplies one) and reset
the position; otherwise keep the current buffer. -/
def refillIfNeeded (len : Nat) (s : PushState) : Option PushState :=
  if s.currDMABuffPos = len ∨ s.currDMABuff = none then
    match s.queue with
    | [] => none
    | b :: rest =>
      some { s with currDMABuff := some b, currDMABuffPos := 0,
                    queue := rest, dequeueCalls := s.dequeueCalls + 1 }
  else some s

/-- Line 302: `currDMABuff[currDMABuffPos++]=sample`. -/
def storeSample (sample : Nat) (t : PushState) : Option PushState :=
  match t.currDMABuff with
  | none => none
  | some b =>
    some { t with currDMABuffPos := t.currDMABuffPos + 1,
                  writes := t.writes ++ [(b, t.currDMABuffPos, sample)] }

/-- `i2sPushSample` (lines 295-303): refill if needed, then store. -/
def i2sPushSample (len sample : Nat) (s : PushState) : Option PushState :=
  (refillIfNeeded len s).bind (storeSample sample)

/-- C3: when the producer holds no buffer or the offset equals the capacity,
`i2sPushSample` first dequeues the next buffer and resets the offset to zero,
then writes the frame at the (reset) offset and increments it; otherwise it
only writes at the current offset and increments it — the full
state-equalities show no other producer state changes. -/
theorem i2sPushSample_spec (len sample : Nat) (s : PushState) :
    (∀ b rest, (s.currDMABuffPos = len ∨ s.currDMABuff = none) → s.queue = b :: rest →
      i2sPushSample len sample s =
        some ⟨some b, 1, rest, s.dequeueCalls + 1, s.writes ++ [(b, 0, sample)]⟩) ∧
    (∀ b, s.currDMABuffPos ≠ len → s.currDMABuff = some b →
      i2sPushSample len sample s =
        some ⟨some b, s.currDMABuffPos + 1, s.queue, s.dequeueCalls,
              s.writes ++ [(b, s.currDMABuffPos, sample)]⟩) := by
  constructor
  · intro b rest hneed hq
    simp [i2sPushSample, refillIfNeeded, if_pos hneed, hq, storeSample, Option.bind]
  · intro b hpos hbuf
    simp [i2sPushSample, refillIfNeeded, storeSample, Option.bind, hbuf, hpos]

/-- Witness for C3: both branches at concrete states with buffer length 4. -/
theorem i2sPushSample_spec_witness :
    (((⟨none, 0, [6, 7], 0, []⟩ : PushState).currDMABuffPos = 4 ∨
        (⟨none, 0, [6, 7], 0, []⟩ : PushState).currDMABuff = none) ∧
      i2sPushSample 4 9 ⟨none, 0, [6, 7], 0, []⟩ =
        some ⟨some 6, 1, [7], 0 + 1, [] ++ [(6, 0, 9)]⟩) ∧
    ((1 : Nat) ≠ 4 ∧
      i2sPushSample 4 9 ⟨some 6, 1, [7], 1, [(6, 0, 9)]⟩ =
        some ⟨some 6, 1 + 1, [7], 1, [(6, 0, 9)] ++ [(6, 1, 9)]⟩) :=
  ⟨⟨Or.inr rfl,
    (i2sPushSample_spec 4 9 ⟨none, 0, [6, 7], 0, []⟩).1 6 [7] (Or.inr rfl) rfl⟩,
   ⟨by decide,
    (i2sPushSample_spec 4 9 ⟨some 6, 1, [7], 1, [(6, 0, 9)]⟩).2 6 (by decide) rfl⟩⟩

/-- Running a list of pushes in order, stopping (`none`) if one blocks on an
empty queue forever. -/
def runPushes (len : Nat) (samples : List Nat) (s : PushState) : Option PushState :=
  match samples with
  | [] => some s
  | x :: xs =>
    match i2sPushSample len x s with
    | none => none
    | some t => runPushes len xs t

/-- The producer state right after `i2sInit`: `currDMABuff=NULL`,
`currDMABuffPos=0`, facing completion queue `q`, nothing yet dequeued or
written. -/
def initPushState (q : List Nat) : PushState := ⟨none, 0, q, 0, []⟩

/-- One push keeps the offset within `[0, len]` and all logged store indices
below `len`. -/
theorem push_inv (len sample : Nat) (hlen : 0 < len) (s t : PushState)
    (hpos : s.currDMABuffPos ≤ len) (hw : ∀ w ∈ s.writes, w.2.1 < len)
    (h : i2sPushSample len sample s = some t) :
    t.currDMABuffPos ≤ len ∧ ∀ w ∈ t.writes, w.2.1 < len := by
  by_cases hneed : s.currDMABuffPos = len ∨ s.currDMABuff = none
  · rcases hq : s.queue with _ | ⟨b, rest⟩
    · rw [i2sPushSample, refillIfNeeded, if_pos hneed, hq] at h
      exact Option.noConfusion h
    · rw [(i2sPushSample_spec len sample s).1 b rest hneed hq] at h
      obtain rfl := Option.some_injective _ h
      refine ⟨hlen, ?_⟩
      intro w hwmem
      rcases List.mem_append.mp hwmem with hold | hnew
      · exact hw w hold
      · rcases List.mem_singleton.mp hnew with rfl
        exact hlen
  · push_neg at hneed
    obtain ⟨hpos2, hbuf⟩ := hneed
    rcases hb : s.currDMABuff with _ | b
    · exact absurd hb hbuf
    · rw [(i2sPushSample_spec len sample s).2 b hpos2 hb] at h
      obtain rfl := Option.some_injective _ h
      refine ⟨show s.currDMABuffPos + 1 ≤ len by omega, ?_⟩
      intro w hwmem
      rcases List.mem_append.mp hwmem with hold | hnew
      · exact hw w hold
      · rcases List.mem_singleton.mp hnew with rfl
        show s.currDMABuffPos < len
        omega

/-- The invariant carries over any run of pushes. -/
theorem runPushes_inv (len : Nat) (hlen : 0 < len) :
    ∀ (samples : List Nat) (s t : PushState),
      s.currDMABuffPos ≤ len → (∀ w ∈ s.writes, w.2.1 < len) →
      runPushes len samples s = some t →
      t.currDMABuffPos ≤ len ∧ ∀ w ∈ t.writes, w.2.1 < len := by
  intro samples
  induction samples with
  | nil =>
    intro s t hpos hw h
    rw [runPushes] at h
    obtain rfl := Option.some_injective _ h
    exact ⟨hpos, hw⟩
  | cons x xs ih =>
    intro s t hpos hw h
    rw [runPushes] at h
    rcases hstep : i2sPushSample len x s with _ | u
    · rw [hstep] at h
      exact Option.noConfusion h
    · rw [hstep] at h
      obtain ⟨hpos2, hw2⟩ := push_inv len x hlen s u hpos hw hstep
      exact ih u t hpos2 hw2 h

/-- C9: from the initial producer state (no buffer, offset zero) facing any
completion-queue contents, any sequence of `i2sPushSample` calls keeps the
write offset in `[0, I2SDMABUFLEN]` and every logged sample store lands at an
index strictly below `I2SDMABUFLEN`: no write past the end of a sample buffer
is possible through this interface. -/
theorem i2sPushSample_no_overflow (len : Nat) (hlen : 0 < len)
    (q samples : List Nat) (t : PushState)
    (h : runPushes len samples (initPushState q) = some t) :
    t.currDMABuffPos ≤ len ∧ ∀ w ∈ t.writes, w.2.1 < len :=
  runPushes_inv len hlen samples (initPushState q) t
    (Nat.zero_le len) (fun w hw => absurd hw (List.not_mem_nil w)) h

/-- Witness for C9: a concrete run of three pushes over buffers of length 2. -/
theorem i2sPushSample_no_overflow_witness :
    (0 : Nat) < 2 ∧
    ((runPushes 2 [11, 12, 13] (initPushState [5, 6]) =
        some ⟨some 6, 1, [], 2, [(5, 0, 11), (5, 1, 12), (6, 0, 13)]⟩) ∧
      (⟨some 6, 1, [], 2, [(5, 0, 11), (5, 1, 12), (6, 0, 13)]⟩ : PushState).currDMABuffPos ≤ 2 ∧
      ∀ w ∈ (⟨some 6, 1, [], 2, [(5, 0, 11), (5, 1, 12), (6, 0, 13)]⟩ : PushState).writes,
        w.2.1 < 2) :=
  ⟨by decide,
   by
    have hrun : runPushes 2 [11, 12, 13] (initPushState [5, 6]) =
        some ⟨some 6, 1, [], 2, [(5, 0, 11), (5, 1, 12), (6, 0, 13)]⟩ := by decide
    exact ⟨hrun, i2sPushSample_no_overflow 2 (by decide) [5, 6] [11, 12, 13] _ hrun⟩⟩

/-- The end-to-end scenario of C5: buffers of 128 frames, `N_BUF = 4` (so the
post-init completion queue can hold at most three buffer tokens), 130 pushes
from the post-init producer state. -/
def c5run : Option PushState :=
  runPushes 128 (List.replicate 130 7) (initPushState [10, 11, 12])

/-- Counterexample to C5 as stated: the 130 pushes perform two `xQueueReceive`
calls (the very first push must already dequeue a buffer, since after init no
buffer is held), not one. -/
theorem c5run_two_dequeues :
    Option.map PushState.dequeueCalls c5run = some 2 ∧
    Option.map PushState.dequeueCalls c5run ≠ some 1 := by
  constructor <;> decide

/-- C5 amended: starting from the post-init producer state with buffer length
128 and `N_BUF = 4`, exactly 130 `i2sPushSample` calls perform exactly two
dequeue calls — the initial buffer acquisition plus one buffer-boundary
crossing — and leave the producer's write offset equal to 2. -/
theorem c5run_amended :
    Option.map PushState.dequeueCalls c5run = some 2 ∧
    Option.map PushState.currDMABuffPos c5run = some 2 := by
  constructor <;> decide

/-! ## Initialization (`i2sInit`, lines 115-233)

`I2SDMABUFCNT` and `I2SDMABUFLEN` come from `i2s_freertos.h`, which is not
part of this repository; they stay parameters `cnt` and `len`. -/

/-- One DMA descriptor (`lldesc_t`).  Addresses are embedded as indices: the
`buf` field holds the index of the sample buffer `&i2sBuf[x][0]` and `empty`
(the hardware's next-link field) the index of the successor descriptor. -/
structure Lldesc where
  owner : Nat
  eof : Nat
  sosf : Nat
  length : Nat
  size : Nat
  buf : Nat
  offset : Nat
  empty : Nat
  deriving DecidableEq, Repr

/-- Lines 152-161: descriptor `x` of the ring. -/
def mkDesc (cnt len x : Nat) : Lldesc :=
  { owner := 1, eof := 1, sosf := 0, length := len * 4, size := len * 4,
    buf := x, offset := 0,
    empty := if x < cnt - 1 then x + 1 else 0 }

/-- The driver state `i2sInit` builds: the sample buffers (each a byte list;
`none` stands for a `NULL` pointer from a failed `calloc`), the descriptor
ring, the descriptor indices written to the output-chain register
`I2S_OUT_LINK_REG` and input-chain register `I2S_IN_LINK_REG`
(lines 167-170), the queue capacity from `xQueueCreate(I2SDMABUFCNT-1, ...)`
(line 178), and the cleared underrun counter (line 118). -/
structure InitState where
  i2sBuf : List (Option (List Nat))
  i2sBufDesc : List Lldesc
  outLinkAddr : Nat
  inLinkAddr : Nat
  dmaQueueCap : Nat
  underrunCnt : Int
  deriving DecidableEq, Repr

/-- Line 125: `i2sBuf[y]=calloc(I2SDMABUFLEN, 4)` — a zero-filled block of
`len*4` bytes on success, `NULL` on failure. -/
def callocBuf (len : Nat) (ok : Bool) : Option (List Nat) :=
  if ok then some (List.replicate (len * 4) 0) else none

/-- Lines 127-129: `for (x=0; x<I2SDMABUFLEN; x++) i2sBuf[y][x]=0`. -/
def zeroLoop (len : Nat) (b : List Nat) : List Nat :=
  (List.range len).foldl (fun acc x => acc.set x 0) b

/-- The clearing loop applied to the pointer `calloc` returned: when the loop
runs at least once (`0 < len`), a store through a `NULL` pointer faults, which
on this target is fatal — modelled as `none` for the whole initialization. -/
def clearBuf (len : Nat) (b : Option (List Nat)) : Option (Option (List Nat)) :=
  if len = 0 then some b
  else
    match b with
    | none => none
    | some bytes => some (some (zeroLoop len bytes))

/-- Lines 122-130: allocate and clear the sample buffers in order, `allocOk y`
telling whether the `y`-th `calloc` succeeds. -/
def allocBuffers (len : Nat) (allocOk : Nat → Bool) : List Nat → Option (List (Option (List Nat)))
  | [] => some []
  | y :: ys =>
    match clearBuf len (callocBuf len (allocOk y)) with
    | none => none
    | some b =>
      match allocBuffers len allocOk ys with
      | none => none
      | some bs => some (b :: bs)

/-- `i2sInit` (lines 115-233), restricted to the pipeline state in scope:
clear the underrun counter, build the buffer pool, build the descriptor ring
(lines 152-161), hand descriptor 0 to the output-chain register and
descriptor 1 to the input-chain register (lines 167-170), and create the
completion queue with capacity `cnt - 1` (line 178).  Pure register/GPIO
configuration has no observable pipeline state and is omitted. -/
def i2sInit (cnt len : Nat) (allocOk : Nat → Bool) : Option InitState :=
  match allocBuffers len allocOk (List.range cnt) with
  | none => none
  | some bufs =>
    some { i2sBuf := bufs,
           i2sBufDesc := (List.range cnt).map (mkDesc cnt len),
           outLinkAddr := 0,
           inLinkAddr := 1,
           dmaQueueCap := cnt - 1,
           underrunCnt := 0 }

/-- Setting an element of an all-zero list to zero changes nothing. -/
theorem replicate_set_zero : ∀ (n i : Nat), (List.replicate n (0 : Nat)).set i 0 = List.replicate n 0
  | 0, _ => rfl
  | n + 1, 0 => by simp [List.replicate_succ]
  | n + 1, i + 1 => by
    simp only [List.replicate_succ, List.set_cons_succ]
    rw [replicate_set_zero n i]

/-- The clearing loop leaves an all-zero buffer all zero. -/
theorem zeroLoop_replicate (len m : Nat) :
    zeroLoop len (List.replicate m 0) = List.replicate m 0 := by
  unfold zeroLoop
  induction List.range len with
  | nil => rfl
  | cons x xs ih =>
    rw [List.foldl_cons, replicate_set_zero, ih]

/-- A successful `calloc` followed by the clearing loop yields the all-zero
buffer. -/
theorem clearBuf_ok (len : Nat) :
    clearBuf len (callocBuf len true) = some (some (List.replicate (len * 4) 0)) := by
  by_cases h0 : len = 0
  · subst h0
    rfl
  · simp [clearBuf, callocBuf, h0, zeroLoop_replicate]

/-- With every allocation succeeding, the pool is the all-zero buffers. -/
theorem allocBuffers_ok (len : Nat) :
    ∀ l : List Nat, allocBuffers len (fun _ => true) l =
      some (l.map fun _ => some (List.replicate (len * 4) 0)) := by
  intro l
  induction l with
  | nil => rfl
  | cons y ys ih =>
    rw [allocBuffers, clearBuf_ok, ih]
    rfl

/-- The fully successful initialization, in closed form. -/
theorem i2sInit_ok (cnt len : Nat) :
    i2sInit cnt len (fun _ => true) =
      some { i2sBuf := List.replicate cnt (some (List.replicate (len * 4) 0)),
             i2sBufDesc := (List.range cnt).map (mkDesc cnt len),
             outLinkAddr := 0,
             inLinkAddr := 1,
             dmaQueueCap := cnt - 1,
             underrunCnt := 0 } := by
  rw [i2sInit, allocBuffers_ok]
  have hmap : List.map (fun _ => some (List.replicate (len * 4) 0)) (List.range cnt) =
      List.replicate cnt (some (List.replicate (len * 4) 0)) := by
    rw [List.map_const', List.length_range]
  rw [hmap]

/-- Successor function the hardware walks: the `empty` (next) field of
descriptor `i`. -/
def descStep (ds : List Lldesc) (i : Nat) : Nat :=
  (ds.getD i ⟨0, 0, 0, 0, 0, 0, 0, 0⟩).empty

/-- Reading descriptor `i` of the constructed ring. -/
theorem getD_mkDesc (cnt len i : Nat) (hi : i < cnt) :
    ((List.range cnt).map (mkDesc cnt len)).getD i ⟨0, 0, 0, 0, 0, 0, 0, 0⟩ =
      mkDesc cnt len i := by
  rw [List.getD_eq_getElem?_getD, List.getElem?_map, List.getElem?_range hi]
  rfl

/-- The `empty` link of descriptor `i` is `(i+1) mod cnt`. -/
theorem mkDesc_empty (cnt len i : Nat) (hi : i < cnt) :
    (mkDesc cnt len i).empty = (i + 1) % cnt := by
  show (if i < cnt - 1 then i + 1 else 0) = (i + 1) % cnt
  by_cases h : i < cnt - 1
  · rw [if_pos h, Nat.mod_eq_of_lt (by omega)]
  · rw [if_neg h]
    have : i + 1 = cnt := by omega
    rw [this, Nat.mod_self]

/-- Walking the ring from descriptor 0 visits descriptor `k` at step `k`. -/
theorem descStep_iterate (cnt len : Nat) :
    ∀ k, k ≤ cnt →
      (descStep ((List.range cnt).map (mkDesc cnt len)))^[k] 0 = k % cnt := by
  intro k
  induction k with
  | zero =>
    intro _
    rw [Function.iterate_zero_apply, Nat.zero_mod]
  | succ k ih =>
    intro hk
    rw [Function.iterate_succ_apply', ih (by omega)]
    have hklt : k < cnt := by omega
    rw [Nat.mod_eq_of_lt hklt, descStep, getD_mkDesc cnt len k hklt,
      mkDesc_empty cnt len k hklt]

/-- The ring property claimed of the initialized descriptors. -/
def DescriptorRing (cnt len : Nat) (st : InitState) : Prop :=
  st.outLinkAddr = 0 ∧ st.inLinkAddr = 1 ∧
  st.i2sBufDesc.length = cnt ∧
  (∀ i, i < cnt →
    (st.i2sBufDesc.getD i ⟨0, 0, 0, 0, 0, 0, 0, 0⟩).owner = 1 ∧
    (st.i2sBufDesc.getD i ⟨0, 0, 0, 0, 0, 0, 0, 0⟩).eof = 1 ∧
    (st.i2sBufDesc.getD i ⟨0, 0, 0, 0, 0, 0, 0, 0⟩).length = len * 4 ∧
    (st.i2sBufDesc.getD i ⟨0, 0, 0, 0, 0, 0, 0, 0⟩).size = len * 4 ∧
    (st.i2sBufDesc.getD i ⟨0, 0, 0, 0, 0, 0, 0, 0⟩).buf = i ∧
    (st.i2sBufDesc.getD i ⟨0, 0, 0, 0, 0, 0, 0, 0⟩).empty = (i + 1) % cnt) ∧
  (∀ k, k < cnt → (descStep st.i2sBufDesc)^[k] 0 = k) ∧
  (descStep st.i2sBufDesc)^[cnt] 0 = 0

/-- C4: after initialization every descriptor has owner and end-of-frame
flags 1, length and capacity `I2SDMABUFLEN*4` bytes, buffer pointer `i` and
next link `(i+1) mod N_BUF`; following the links from descriptor 0 visits all
`N_BUF` descriptors exactly once per cycle and returns to descriptor 0; the
output-chain register gets descriptor 0 and the input-chain register gets
descriptor 1. -/
theorem i2sInit_descriptor_ring (cnt len : Nat) (h2 : 2 ≤ cnt) :
    ∃ st, i2sInit cnt len (fun _ => true) = some st ∧ DescriptorRing cnt len st := by
  refine ⟨_, i2sInit_ok cnt len, ?_, ?_, ?_, ?_, ?_, ?_⟩
  · rfl
  · rfl
  · simp
  · intro i hi
    show (((List.range cnt).map (mkDesc cnt len)).getD i ⟨0, 0, 0, 0, 0, 0, 0, 0⟩).owner = 1 ∧ _
    rw [getD_mkDesc cnt len i hi]
    exact ⟨rfl, rfl, rfl, rfl, rfl, mkDesc_empty cnt len i hi⟩
  · intro k hk
    have := descStep_iterate cnt len k (by omega)
    rwa [Nat.mod_eq_of_lt hk] at this
  · have := descStep_iterate cnt len cnt (le_refl cnt)
    rwa [Nat.mod_self] at this

/-- Witness for C4 at `N_BUF = 4`, 128-frame buffers. -/
theorem i2sInit_descriptor_ring_witness :
    (2 : Nat) ≤ 4 ∧
    ∃ st, i2sInit 4 128 (fun _ => true) = some st ∧ DescriptorRing 4 128 st :=
  ⟨by decide, i2sInit_descriptor_ring 4 128 (by decide)⟩

/-- C7: if any one of the `cnt` buffer allocations fails, initialization is
fatal (the clearing loop faults on the `NULL` pointer): no state with
descriptors, queue or started transmission is produced at all. -/
theorem i2sInit_alloc_fatal (cnt len k : Nat) (allocOk : Nat → Bool)
    (hk : k < cnt) (hfail : allocOk k = false) (hlen : 0 < len) :
    i2sInit cnt len allocOk = none := by
  have hmem : k ∈ List.range cnt := List.mem_range.mpr hk
  have hnone : ∀ l : List Nat, k ∈ l → allocBuffers len allocOk l = none := by
    intro l
    induction l with
    | nil =>
      intro h
      exact absurd h (List.not_mem_nil k)
    | cons y ys ih =>
      intro h
      rcases List.mem_cons.mp h with rfl | hmem2
      · rw [allocBuffers, hfail]
        have : clearBuf len (callocBuf len false) = none := by
          simp [clearBuf, callocBuf, Nat.pos_iff_ne_zero.mp hlen]
        rw [this]
      · rw [allocBuffers, ih hmem2]
        rcases clearBuf len (callocBuf len (allocOk y)) with _ | b <;> rfl
  rw [i2sInit, hnone (List.range cnt) hmem]

/-- Witness for C7: the third of four allocations fails. -/
theorem i2sInit_alloc_fatal_witness :
    (2 : Nat) < 4 ∧ ((fun y => y != 2) 2 : Bool) = false ∧ (0 : Nat) < 128 ∧
    i2sInit 4 128 (fun y => y != 2) = none :=
  ⟨by decide, by decide, by decide,
   i2sInit_alloc_fatal 4 128 2 (fun y => y != 2) (by decide) (by decide) (by decide)⟩

/-- C8: after a fully successful initialization, every one of the `cnt`
sample buffers is exactly `len*4` zero bytes — no uninitialized memory can be
clocked out as audio. -/
theorem i2sInit_buffers_zero (cnt len : Nat) :
    ∃ st, i2sInit cnt len (fun _ => true) = some st ∧
      st.i2sBuf.length = cnt ∧
      ∀ b ∈ st.i2sBuf, b = some (List.replicate (len * 4) 0) := by
  refine ⟨_, i2sInit_ok cnt len, ?_, ?_⟩
  · exact List.length_replicate cnt _
  · intro b hb
    exact List.eq_of_mem_replicate hb

end I2S
